import Mathlib

/-!
# checkParallelUT.cpp: packed upper-triangular indexing and range dispatch

A shallow embedding of `src/checkParallelUT.cpp`.

Modelling conventions.

* C++ `int` and `unsigned` values are integers (`Int`, `Nat`), and C++ `/` on `int` truncates
  toward zero: `Int.tdiv`.  `int` is 32 bits wide and the compiled program wraps on overflow
  (`wrap32`).  Overflow is reached in two places, and both are modelled with the wrap: the
  product of line 50 in the constructor, and the row search of lines 121-123, which for a
  `start` at or after the pair count only leaves when `rowsum` has wrapped (`firstRowLoop32`,
  `processRangeOfPairs32`, `loopToSimulateParallelProcessing32`).  `firstRowLoop`,
  `processRangeOfPairs` and `loopToSimulateParallelProcessing` are the same code read over the
  integers; the two readings are the same function whenever `0 ≤ start < npairs` on an object
  of at most `46341` rows (`processRangeOfPairs32_eq`), where no value leaves the `int` range.
  The one `unsigned` product (line 109) cannot wrap: `thread_len_mul_lt`.
* The object is the record of its fields; `pairvecs` (an array of `npairs` arrays of `vlen`
  ints) is a list of lists.  The extra field `calls` is a ghost log of the `processPair`
  invocations, in call order; no code reads it.
* A run that cannot continue ends in a `Fault`, paired with the object as it was at that point:
  `abort` is the `abort()` of `processPair`, `outOfBounds` an access outside an array,
  `badArrayNewLength` an array `new` of negative length, `outOfFuel` an exhausted iteration
  budget (loops that may spin take a `fuel` argument and keep the loop condition literally).
* Console output is not modelled.
-/

namespace ParallelUT

/-- Ways in which a run stops without returning. -/
inductive Fault where
  | abort
  | outOfBounds
  | badArrayNewLength
  | outOfFuel
  deriving DecidableEq

/-- Fields of `class TriangularMatrixOfVectors` (lines 20-23), plus the ghost log `calls`. -/
structure TriangularMatrixOfVectors where
  nrows : Int
  npairs : Int
  vlen : Int
  pairvecs : List (List Int)
  calls : List (Int × Int × Int)
  deriving DecidableEq

/-- Fields added by `class ThreadedTriangularMatrix` (lines 92-95). -/
structure ThreadedTriangularMatrix extends TriangularMatrixOfVectors where
  max_threads : Nat
  nthreads : Nat
  thread_len : Int
  deriving DecidableEq

/-- Result of a run that works on the object: the object, or a fault and the object so far. -/
abbrev Run (α : Type) := Except (Fault × TriangularMatrixOfVectors) α

/-- The object a run ended with, whether it returned or stopped on a fault. -/
def Run.final : Run TriangularMatrixOfVectors → TriangularMatrixOfVectors
  | .ok m => m
  | .error (_, m) => m

/-- A 32-bit `int` result: the value in `[-2^31, 2^31)` that differs from `x` by a multiple of
`2^32`. -/
def wrap32 (x : Int) : Int :=
  (x + 2147483648) % 4294967296 - 2147483648

/-- Lines 25-46: `int ut2dto1didx(int i1, int i2)`. -/
def ut2dto1didx (m : TriangularMatrixOfVectors) (i1 i2 : Int) : Int :=
  if i1 = i2 then -128
  else
    let r := if i1 < i2 then i1 else i2
    let c := if i1 < i2 then i2 else i1
    if r ≥ c then -909
    else if r < 0 then -127
    else if c ≥ m.npairs then -255
    else r * (m.nrows - 1) - Int.tdiv ((r - 1) * ((r - 1) + 1)) 2 + c - r - 1

/-- Lines 48-57: the constructor.  The product of line 50 is an `int` product and wraps;
`new int*[npairs]` throws for a negative length and `new int[vlen]` is reached only when
`npairs > 0`. -/
def TriangularMatrixOfVectors.ctor (nside vectlen : Int) :
    Except Fault TriangularMatrixOfVectors :=
  let nrows := nside
  let npairs := Int.tdiv (wrap32 (nrows * (nrows - 1))) 2
  if npairs < 0 ∨ (0 < npairs ∧ vectlen < 0) then .error .badArrayNewLength
  else .ok
    { nrows := nrows
      npairs := npairs
      vlen := vectlen
      pairvecs := List.replicate npairs.toNat (List.replicate vectlen.toNat 0)
      calls := [] }

/-- Lines 66-70 on one vector: `for(i=0; i<vlen; ++i) ++v[i]` increments the first `k = vlen`
elements, and runs off the end of a vector that is shorter than `k`. -/
def incrementFirst : Nat → List Int → Option (List Int)
  | 0, v => some v
  | _ + 1, [] => none
  | k + 1, x :: xs => (incrementFirst k xs).map (fun ys => (x + 1) :: ys)

/-- Lines 58-71: `void processPair(int row, int col, int triangular1didx)`. -/
def processPair (m : TriangularMatrixOfVectors) (row col triangular1didx : Int) :
    Run TriangularMatrixOfVectors :=
  let m1 := { m with calls := m.calls ++ [(row, col, triangular1didx)] }
  if ut2dto1didx m row col ≠ triangular1didx then .error (.abort, m1)
  else if m.vlen ≤ 0 then .ok m1
  else if triangular1didx < 0 then .error (.outOfBounds, m1)
  else
    match m.pairvecs[triangular1didx.toNat]? with
    | none => .error (.outOfBounds, m1)
    | some v =>
      match incrementFirst m.vlen.toNat v with
      | none => .error (.outOfBounds, m1)
      | some v1 => .ok { m1 with pairvecs := m.pairvecs.set triangular1didx.toNat v1 }

/-- Lines 107-109, the loop: `while((thread_len*nthreads) < npairs) ++thread_len;`. -/
def threadLenLoop (npairs : Int) (nthreads : Nat) : Nat → Int → Option Int
  | 0, _ => none
  | fuel + 1, thread_len =>
    if thread_len * (nthreads : Int) < npairs then
      threadLenLoop npairs nthreads fuel (thread_len + 1)
    else some thread_len

/-- Lines 107-109: `thread_len = npairs / nthreads;` followed by the loop. -/
def computeThreadLen (fuel : Nat) (npairs : Int) (nthreads : Nat) : Option Int :=
  threadLenLoop npairs nthreads fuel (Int.tdiv npairs (nthreads : Int))

/-- Lines 101-105: the choice of `nthreads`. -/
def chooseThreads (nsimthreads : Int) (max_threads : Nat) : Nat :=
  if nsimthreads ≤ 0 then (if max_threads > 1 then max_threads - 1 else 1)
  else nsimthreads.toNat

/-- Lines 97-111: the constructor of `ThreadedTriangularMatrix`; `hardware_concurrency` is the
value returned by `std::thread::hardware_concurrency()`. -/
def ThreadedTriangularMatrix.ctor (fuel : Nat) (nside vectlen nsimthreads : Int)
    (hardware_concurrency : Nat) : Except Fault ThreadedTriangularMatrix :=
  match TriangularMatrixOfVectors.ctor nside vectlen with
  | .error e => .error e
  | .ok base =>
    let max_threads := hardware_concurrency
    let nthreads := chooseThreads nsimthreads max_threads
    match computeThreadLen fuel base.npairs nthreads with
    | none => .error .outOfFuel
    | some thread_len =>
      .ok { toTriangularMatrixOfVectors := base
            max_threads := max_threads
            nthreads := nthreads
            thread_len := thread_len }

/-- Line 117: `int final = (npairs<end)?npairs:end;`. -/
def clampEnd (npairs end_ : Int) : Int :=
  if npairs < end_ then npairs else end_

/-- Lines 118-123: `for(rowsum=rowlen; rowsum <= start; rowsum +=(--rowlen)) ++firstrow;`,
entered with `rowlen = nrows-1`, `firstrow = 0`, `rowsum = rowlen`.  Returns `firstrow`.  Read
over the integers; `firstRowLoop32` is the loop on 32-bit `int`s. -/
def firstRowLoop (start : Int) : Nat → Int → Int → Int → Option Int
  | 0, _, _, _ => none
  | fuel + 1, rowlen, firstrow, rowsum =>
    if rowsum ≤ start then
      firstRowLoop start fuel (rowlen - 1) (firstrow + 1) (rowsum + (rowlen - 1))
    else some firstrow

/-- Lines 128-133: the column loop of row `i`, from column `j`. -/
def innerLoop (start final i : Int) :
    Nat → Int → Bool → TriangularMatrixOfVectors → Run (Bool × TriangularMatrixOfVectors)
  | 0, _, _, m => .error (.outOfFuel, m)
  | fuel + 1, j, keepgoing, m =>
    if j < m.nrows ∧ keepgoing = true then
      let pairidx := ut2dto1didx m i j
      if pairidx ≥ start then
        if pairidx < final then
          match processPair m i j pairidx with
          | .error e => .error e
          | .ok m1 => innerLoop start final i fuel (j + 1) true m1
        else innerLoop start final i fuel (j + 1) false m
      else innerLoop start final i fuel (j + 1) keepgoing m
    else .ok (keepgoing, m)

/-- Lines 127-134: the row loop, from row `i`. -/
def outerLoop (start final : Int) :
    Nat → Int → Bool → TriangularMatrixOfVectors → Run TriangularMatrixOfVectors
  | 0, _, _, m => .error (.outOfFuel, m)
  | fuel + 1, i, keepgoing, m =>
    if i < m.nrows ∧ keepgoing = true then
      match innerLoop start final i fuel (i + 1) keepgoing m with
      | .error e => .error e
      | .ok (keepgoing1, m1) => outerLoop start final fuel (i + 1) keepgoing1 m1
    else .ok m

/-- Lines 113-135: `void processRangeOfPairs(int start, int end)`, read over the integers;
`processRangeOfPairs32` is the run on 32-bit `int`s. -/
def processRangeOfPairs (fuel : Nat) (m : TriangularMatrixOfVectors) (start end_ : Int) :
    Run TriangularMatrixOfVectors :=
  let final := clampEnd m.npairs end_
  let rowlen := m.nrows - 1
  match firstRowLoop start fuel rowlen 0 rowlen with
  | none => .error (.outOfFuel, m)
  | some firstrow => outerLoop start final fuel firstrow true m

/-- Lines 153-159: the `(fst, lst)` arguments that the dispatch loop hands to
`processRangeOfPairs`, one per iteration of `for(int i=0; i<nthreads; ++i)`; the first argument
counts the iterations still to run. -/
def dispatchRanges (thread_len : Int) : Nat → Int → Int → List (Int × Int)
  | 0, _, _ => []
  | k + 1, fst, lst => (fst, lst) :: dispatchRanges thread_len k lst (lst + thread_len)

/-- Lines 155-159: the dispatch loop with its body, `k` iterations still to run. -/
def simulateLoop (fuel : Nat) (thread_len : Int) :
    Nat → Int → Int → TriangularMatrixOfVectors → Run TriangularMatrixOfVectors
  | 0, _, _, m => .ok m
  | k + 1, fst, lst, m =>
    match processRangeOfPairs fuel m fst lst with
    | .error e => .error e
    | .ok m1 => simulateLoop fuel thread_len k lst (lst + thread_len) m1

/-- Lines 152-160: `void loopToSimulateParallelProcessing(void)`. -/
def loopToSimulateParallelProcessing (fuel : Nat) (t : ThreadedTriangularMatrix) :
    Run TriangularMatrixOfVectors :=
  simulateLoop fuel t.thread_len t.nthreads 0 t.thread_len t.toTriangularMatrixOfVectors

/-- Offsets a worker given `(start, end)` may touch: `start ≤ x < final` (lines 117, 130). -/
def inRange (npairs : Int) (r : Int × Int) (x : Int) : Prop :=
  r.1 ≤ x ∧ x < clampEnd npairs r.2

/-- The object a column loop ended with, whether it returned or stopped on a fault. -/
def Run.finalOf : Run (Bool × TriangularMatrixOfVectors) → TriangularMatrixOfVectors
  | .ok (_, m) => m
  | .error (_, m) => m

/-- Going from `m` to `m1` kept the dimensions and every vector stored at an offset outside
`S`. -/
def Frame (S : Int → Prop) (m m1 : TriangularMatrixOfVectors) : Prop :=
  m1.nrows = m.nrows ∧ m1.npairs = m.npairs ∧ m1.vlen = m.vlen ∧
    ∀ k : Nat, ¬ S (k : Int) → m1.pairvecs[k]? = m.pairvecs[k]?

/-- The object is in a state that the constructor produces and `processPair` keeps: the pair
count is the one computed on line 50 and the store holds `npairs` vectors of `vlen` ints. -/
structure WellFormed (m : TriangularMatrixOfVectors) : Prop where
  npairs_eq : m.npairs = Int.tdiv (m.nrows * (m.nrows - 1)) 2
  length_eq : m.pairvecs.length = m.npairs.toNat
  vec_length : ∀ v ∈ m.pairvecs, v.length = m.vlen.toNat

/-- Lines 139-146: the `(fst, lst)` arguments with which `threadedProcessingOfAllPairs` starts
its threads, one per iteration of `for(int i=0; i<nthreads; ++i)`; the first argument counts
the iterations still to run. -/
def threadedRanges (thread_len : Int) : Nat → Int → Int → List (Int × Int)
  | 0, _, _ => []
  | k + 1, fst, lst => (fst, lst) :: threadedRanges thread_len k lst (lst + thread_len)

/-- Lines 137-150: `void threadedProcessingOfAllPairs(void)`, as the list of the calls
`processRangeOfPairs(fst, lst)` it starts, one thread each, in the order of creation.  How the
threads interleave is not modelled. -/
def threadedProcessingOfAllPairs (t : ThreadedTriangularMatrix) : List (Int × Int) :=
  threadedRanges t.thread_len t.nthreads 0 t.thread_len

/-- What `finalCheck` leaves behind: the value it returns (or a fault), the offsets at which it
accessed `pairvecs`, in order (a ghost log), and the store after the call. -/
structure CheckOutcome where
  result : Except Fault Int
  reads : List Int
  store : List (List Int)

/-- Lines 78-84: the element loop on the vector at offset `idx`, from element `k`.  The
Boolean is `true` when the loop hit `return 1`. -/
def elementLoop (m : TriangularMatrixOfVectors) (idx : Int) :
    Nat → Int → List Int → List Int × Except Fault Bool
  | 0, _, reads => (reads, .error .outOfFuel)
  | fuel + 1, k, reads =>
    if k < m.vlen then
      if idx < 0 then (reads ++ [idx], .error .outOfBounds)
      else
        match m.pairvecs[idx.toNat]? with
        | none => (reads ++ [idx], .error .outOfBounds)
        | some v =>
          match v[k.toNat]? with
          | none => (reads ++ [idx], .error .outOfBounds)
          | some x =>
            if x ≠ 1 then (reads ++ [idx], .ok true)
            else elementLoop m idx fuel (k + 1) (reads ++ [idx])
    else (reads, .ok false)

/-- Lines 76-85: the column loop of row `i` in `finalCheck`, from column `j`. -/
def checkColumns (m : TriangularMatrixOfVectors) (i : Int) :
    Nat → Int → List Int → List Int × Except Fault Bool
  | 0, _, reads => (reads, .error .outOfFuel)
  | fuel + 1, j, reads =>
    if j < m.nrows then
      let idx := ut2dto1didx m i j
      match elementLoop m idx fuel 0 reads with
      | (reads1, .error e) => (reads1, .error e)
      | (reads1, .ok true) => (reads1, .ok true)
      | (reads1, .ok false) => checkColumns m i fuel (j + 1) reads1
    else (reads, .ok false)

/-- Lines 75-86: the row loop of `finalCheck`, from row `i`. -/
def checkRows (m : TriangularMatrixOfVectors) :
    Nat → Int → List Int → List Int × Except Fault Bool
  | 0, _, reads => (reads, .error .outOfFuel)
  | fuel + 1, i, reads =>
    if i < m.nrows then
      match checkColumns m i fuel (i + 1) reads with
      | (reads1, .error e) => (reads1, .error e)
      | (reads1, .ok true) => (reads1, .ok true)
      | (reads1, .ok false) => checkRows m fuel (i + 1) reads1
    else (reads, .ok false)

/-- Lines 72-89: `int finalCheck(void)`.  The function has no assignment to the store. -/
def finalCheck (fuel : Nat) (m : TriangularMatrixOfVectors) : CheckOutcome :=
  match checkRows m fuel 0 [] with
  | (reads, .error e) => { result := .error e, reads := reads, store := m.pairvecs }
  | (reads, .ok true) => { result := .ok 1, reads := reads, store := m.pairvecs }
  | (reads, .ok false) => { result := .ok 0, reads := reads, store := m.pairvecs }

/-- Number of offsets a worker given `(start, end)` owns: the size of
`[start, min(end, npairs))`. -/
def effectiveLen (npairs : Int) (r : Int × Int) : Int :=
  if r.1 < clampEnd npairs r.2 then clampEnd npairs r.2 - r.1 else 0

/-- Lines 118-123 on 32-bit `int`s, as the compiled program runs them: `--rowlen`,
`++firstrow` and `rowsum += ...` wrap.  Entered with `rowlen = nrows-1`, `firstrow = 0`,
`rowsum = rowlen`; returns `firstrow`. -/
def firstRowLoop32 (start : Int) : Nat → Int → Int → Int → Option Int
  | 0, _, _, _ => none
  | fuel + 1, rowlen, firstrow, rowsum =>
    if rowsum ≤ start then
      firstRowLoop32 start fuel (wrap32 (rowlen - 1)) (wrap32 (firstrow + 1))
        (wrap32 (rowsum + wrap32 (rowlen - 1)))
    else some firstrow

/-- Lines 113-135 with the row search on 32-bit `int`s.  The walk of lines 127-134 is
`outerLoop`: it only computes with indices below `nrows` and their offsets, which fit an `int`
on an object of at most `46341` rows, and it is not entered when `firstrow ≥ nrows`. -/
def processRangeOfPairs32 (fuel : Nat) (m : TriangularMatrixOfVectors) (start end_ : Int) :
    Run TriangularMatrixOfVectors :=
  let final := clampEnd m.npairs end_
  let rowlen := wrap32 (m.nrows - 1)
  match firstRowLoop32 start fuel rowlen 0 rowlen with
  | none => .error (.outOfFuel, m)
  | some firstrow => outerLoop start final fuel firstrow true m

/-- Lines 155-159 with `processRangeOfPairs32` as the body and `lst += thread_len` on 32-bit
`int`s; `k` iterations still to run. -/
def simulateLoop32 (fuel : Nat) (thread_len : Int) :
    Nat → Int → Int → TriangularMatrixOfVectors → Run TriangularMatrixOfVectors
  | 0, _, _, m => .ok m
  | k + 1, fst, lst, m =>
    match processRangeOfPairs32 fuel m fst lst with
    | .error e => .error e
    | .ok m1 => simulateLoop32 fuel thread_len k lst (wrap32 (lst + thread_len)) m1

/-- Lines 152-160 on 32-bit `int`s. -/
def loopToSimulateParallelProcessing32 (fuel : Nat) (t : ThreadedTriangularMatrix) :
    Run TriangularMatrixOfVectors :=
  simulateLoop32 fuel t.thread_len t.nthreads 0 t.thread_len t.toTriangularMatrixOfVectors

/-- The store holds `npairs` vectors of `vlen` ints: every element is `1` in the vectors at the
offsets below `b` and `0` in the vectors at the offsets from `b` on. -/
def Filled (m : TriangularMatrixOfVectors) (b : Int) : Prop :=
  m.pairvecs.length = m.npairs.toNat ∧
    ∀ o : Nat, o < m.npairs.toNat →
      m.pairvecs[o]? = some (List.replicate m.vlen.toNat (if (o : Int) < b then 1 else 0))

/-- An object with 4 rows (6 pairs) and vectors of length 1, as the constructor builds it. -/
def sample4 : TriangularMatrixOfVectors :=
  { nrows := 4, npairs := 6, vlen := 1, pairvecs := List.replicate 6 [0], calls := [] }

/-! ## The index function -/

theorem two_mul_tdiv_pred_mul (r : Int) :
    2 * Int.tdiv ((r - 1) * ((r - 1) + 1)) 2 = (r - 1) * r := by
  have h : (2 : Int) ∣ (r - 1) * ((r - 1) + 1) := (Int.even_mul_succ_self (r - 1)).two_dvd
  rw [Int.mul_tdiv_cancel' h]
  ring

theorem two_mul_npairs (n : Int) : 2 * Int.tdiv (n * (n - 1)) 2 = n * (n - 1) := by
  have h := two_mul_tdiv_pred_mul n
  have e : n * (n - 1) = (n - 1) * ((n - 1) + 1) := by ring
  rw [e, h]
  ring

theorem sample4_ctor : TriangularMatrixOfVectors.ctor 4 1 = .ok sample4 := rfl

/-- C1 (evaluation at the failing input): for `n = 2` the only pair `(0, 1)` has both indices in
`0..n-1`, yet `ut2dto1didx` returns the error value `-255`, which is not in `{0, ..., p-1}`
(`p = 1`): the guard on line 43 compares the column with `npairs`, not with `nrows`. -/
theorem C1_ut2dto1didx_n2_not_offset :
    ∃ m, TriangularMatrixOfVectors.ctor 2 1 = .ok m ∧ m.npairs = 1 ∧
      ut2dto1didx m 0 1 = -255 ∧ ¬ (0 ≤ ut2dto1didx m 0 1 ∧ ut2dto1didx m 0 1 < m.npairs) :=
  ⟨_, rfl, by decide, by decide, by decide⟩

/-- C2: for every object and all indices `i ≠ j` in `[0, nrows)`, `ut2dto1didx i j` equals
`ut2dto1didx j i`. -/
theorem C2_ut2dto1didx_symm (m : TriangularMatrixOfVectors) (i j : Int)
    (_hi : 0 ≤ i ∧ i < m.nrows) (_hj : 0 ≤ j ∧ j < m.nrows) (hij : i ≠ j) :
    ut2dto1didx m i j = ut2dto1didx m j i := by
  have hji : ¬ j = i := fun h => hij h.symm
  rcases lt_or_gt_of_ne hij with h | h
  · have h2 : ¬ j < i := not_lt.mpr h.le
    simp only [ut2dto1didx, hij, hji, h, h2, if_true, if_false]
  · have h2 : ¬ i < j := not_lt.mpr h.le
    simp only [ut2dto1didx, hij, hji, h, h2, if_true, if_false]

theorem C2_ut2dto1didx_symm_witness :
    ((0 : Int) ≤ 1 ∧ (1 : Int) < sample4.nrows) ∧ ((0 : Int) ≤ 3 ∧ (3 : Int) < sample4.nrows) ∧
      (1 : Int) ≠ 3 ∧ ut2dto1didx sample4 1 3 = ut2dto1didx sample4 3 1 :=
  ⟨by decide, by decide, by decide,
    C2_ut2dto1didx_symm sample4 1 3 (by decide) (by decide) (by decide)⟩

/-- C7 (evaluation at the failing input): with `n = 4` (so `p = 6`) the index `4` lies outside
`0..n-1`, yet `ut2dto1didx 0 4` returns `3`, a non-negative value that is also the offset of the
pair `(1, 2)`: line 43 rejects a column only when it is `≥ npairs`. -/
theorem C7_ut2dto1didx_out_of_range_accepted :
    ∃ m, TriangularMatrixOfVectors.ctor 4 1 = .ok m ∧ ¬ ((4 : Int) < m.nrows) ∧
      ut2dto1didx m 0 4 = 3 ∧ ut2dto1didx m 1 2 = 3 :=
  ⟨_, rfl, by decide, by decide, by decide⟩

/-- C8: for every object and every integer `i`, `ut2dto1didx i i` is the error value `-128`,
which is negative and hence never an offset in `[0, npairs)`. -/
theorem C8_ut2dto1didx_diag (m : TriangularMatrixOfVectors) (i : Int) :
    ut2dto1didx m i i = -128 ∧ ut2dto1didx m i i < 0 ∧
      ¬ (0 ≤ ut2dto1didx m i i ∧ ut2dto1didx m i i < m.npairs) := by
  have h : ut2dto1didx m i i = -128 := by simp [ut2dto1didx]
  rw [h]
  omega


/-! ## The range length -/

theorem threadLenLoop_spec (p : Int) (w : Nat) (hw : 1 ≤ w) :
    ∀ (fuel : Nat) (L0 : Int), (p - L0 * (w : Int)).toNat < fuel →
      ∃ L, threadLenLoop p w fuel L0 = some L ∧ L0 ≤ L ∧ p ≤ L * (w : Int) ∧
        (L0 < L → (L - 1) * (w : Int) < p) := by
  intro fuel
  induction fuel with
  | zero => intro L0 h; omega
  | succ fuel ih =>
    intro L0 h
    have e : (L0 + 1) * (w : Int) = L0 * (w : Int) + (w : Int) := by ring
    by_cases hc : L0 * (w : Int) < p
    · have hf : (p - (L0 + 1) * (w : Int)).toNat < fuel := by
        rw [e]; omega
      obtain ⟨L, h1, h2, h3, h4⟩ := ih (L0 + 1) hf
      refine ⟨L, ?_, by omega, h3, ?_⟩
      · simp only [threadLenLoop, if_pos hc, h1]
      · intro _
        rcases eq_or_lt_of_le h2 with h5 | h5
        · rw [← h5]; simpa using hc
        · exact h4 h5
    · refine ⟨L0, ?_, le_refl _, by omega, fun h => absurd h (lt_irrefl _)⟩
      simp only [threadLenLoop, if_neg hc]

theorem tdiv_mul_le (p : Int) (w : Nat) (hp : 0 ≤ p) (hw : 1 ≤ w) :
    0 ≤ Int.tdiv p (w : Int) ∧ Int.tdiv p (w : Int) * (w : Int) ≤ p ∧
      p < (Int.tdiv p (w : Int) + 1) * (w : Int) := by
  have hw0 : (0 : Int) < (w : Int) := by exact_mod_cast hw
  rw [Int.tdiv_eq_ediv hp hw0.le]
  refine ⟨Int.ediv_nonneg hp hw0.le, Int.ediv_mul_le p hw0.ne', ?_⟩
  exact Int.lt_ediv_add_one_mul_self p hw0

theorem computeThreadLen_spec (p : Int) (w : Nat) (hp : 0 ≤ p) (hw : 1 ≤ w) (fuel : Nat)
    (hf : p.toNat < fuel) :
    ∃ L, computeThreadLen fuel p w = some L ∧ 0 ≤ L ∧ p ≤ L * (w : Int) ∧
      (∀ L1 : Int, 0 ≤ L1 → p ≤ L1 * (w : Int) → L ≤ L1) ∧ (0 < p → 0 < L) := by
  obtain ⟨h0, h1, h2⟩ := tdiv_mul_le p w hp hw
  have hw0 : (0 : Int) < (w : Int) := by exact_mod_cast hw
  have hf1 : (p - Int.tdiv p (w : Int) * (w : Int)).toNat < fuel := by
    have : 0 ≤ Int.tdiv p (w : Int) * (w : Int) := mul_nonneg h0 hw0.le
    omega
  obtain ⟨L, e1, e2, e3, e4⟩ := threadLenLoop_spec p w hw fuel _ hf1
  refine ⟨L, e1, by omega, e3, ?_, ?_⟩
  · intro L1 _ h
    by_contra hcon
    have hlt : L1 ≤ L - 1 := by omega
    have hm : L1 * (w : Int) ≤ (L - 1) * (w : Int) := mul_le_mul_of_nonneg_right hlt hw0.le
    rcases eq_or_lt_of_le e2 with h5 | h5
    · have e : (L - 1) * (w : Int) = L * (w : Int) - (w : Int) := by ring
      rw [← h5] at e hm
      omega
    · have := e4 h5
      omega
  · intro hp0
    by_contra hcon
    have : L * (w : Int) ≤ 0 := mul_nonpos_of_nonpos_of_nonneg (by omega) hw0.le
    omega

/-- C10: for every pair count `p ≥ 0` and worker count `w ≥ 1`, the computation of lines 107-109
(truncating division, then the incrementing loop) terminates, with any iteration budget above
`p`, and leaves `thread_len` equal to `ceil(p / w)`: it is `(p + w - 1) / w`, it satisfies
`thread_len * w ≥ p`, and it is the least `L ≥ 0` that does. -/
theorem C10_thread_len_is_ceil (p : Int) (w : Nat) (hp : 0 ≤ p) (hw : 1 ≤ w) :
    ∃ L, (∀ fuel, p.toNat < fuel → computeThreadLen fuel p w = some L) ∧
      L = (p + (w : Int) - 1) / (w : Int) ∧ 0 ≤ L ∧ p ≤ L * (w : Int) ∧
      ∀ L1 : Int, 0 ≤ L1 → p ≤ L1 * (w : Int) → L ≤ L1 := by
  obtain ⟨L, e1, e2, e3, e4, _⟩ := computeThreadLen_spec p w hp hw (p.toNat + 1) (by omega)
  have hw0 : (0 : Int) < (w : Int) := by exact_mod_cast hw
  refine ⟨L, ?_, ?_, e2, e3, e4⟩
  · intro fuel hf
    obtain ⟨L2, f1, f2, f3, f4, _⟩ := computeThreadLen_spec p w hp hw fuel hf
    have a := e4 L2 f2 f3
    have b := f4 L e2 e3
    rw [f1, le_antisymm b a]
  · set q := (p + (w : Int) - 1) / (w : Int) with hq
    have q1 : q * (w : Int) ≤ p + (w : Int) - 1 := Int.ediv_mul_le _ hw0.ne'
    have q2 : p + (w : Int) - 1 < (q + 1) * (w : Int) := Int.lt_ediv_add_one_mul_self _ hw0
    have q0 : 0 ≤ q := Int.ediv_nonneg (by omega) hw0.le
    have q3 : p ≤ q * (w : Int) := by
      have e : (q + 1) * (w : Int) = q * (w : Int) + (w : Int) := by ring
      rw [e] at q2; omega
    have a := e4 q q0 q3
    by_contra hne
    have hlt : L + 1 ≤ q := by omega
    have hm : (L + 1) * (w : Int) ≤ q * (w : Int) := mul_le_mul_of_nonneg_right hlt hw0.le
    have e : (L + 1) * (w : Int) = L * (w : Int) + (w : Int) := by ring
    rw [e] at hm
    omega

theorem C10_thread_len_is_ceil_witness :
    (0 : Int) ≤ 10 ∧ 1 ≤ 3 ∧ computeThreadLen 11 10 3 = some 4 ∧
      ∃ L, (∀ fuel, (10 : Int).toNat < fuel → computeThreadLen fuel 10 3 = some L) ∧
        L = ((10 : Int) + ((3 : Nat) : Int) - 1) / ((3 : Nat) : Int) ∧ 0 ≤ L ∧
        10 ≤ L * ((3 : Nat) : Int) ∧
        ∀ L1 : Int, 0 ≤ L1 → 10 ≤ L1 * ((3 : Nat) : Int) → L ≤ L1 :=
  ⟨by decide, by decide, by decide, C10_thread_len_is_ceil 10 3 (by decide) (by decide)⟩

/-! ## The dispatched ranges -/

theorem lt_clampEnd_iff (p e x : Int) : x < clampEnd p e ↔ x < p ∧ x < e := by
  unfold clampEnd
  split <;> omega

theorem dispatchRanges_eq_map (L : Int) : ∀ (k : Nat) (fst : Int),
    dispatchRanges L k fst (fst + L) =
      (List.range k).map (fun i : Nat => (fst + (i : Int) * L, fst + ((i : Int) + 1) * L)) := by
  intro k
  induction k with
  | zero => intro fst; rfl
  | succ k ih =>
    intro fst
    rw [List.range_succ_eq_map, List.map_cons, List.map_map, dispatchRanges, ih (fst + L)]
    congr 1
    · simp
    · apply List.map_congr_left
      intro i _
      simp only [Function.comp, Nat.succ_eq_add_one, Nat.cast_add, Nat.cast_one, Prod.mk.injEq]
      constructor <;> ring

theorem dispatchRanges_zero (L : Int) (k : Nat) :
    dispatchRanges L k 0 L =
      (List.range k).map (fun i : Nat => ((i : Int) * L, ((i : Int) + 1) * L)) := by
  have h := dispatchRanges_eq_map L k 0
  simpa using h

theorem dispatchRanges_disjoint (p L : Int) (hL : 0 ≤ L) (k : Nat) :
    (dispatchRanges L k 0 L).Pairwise (fun a b => ∀ x, ¬ (inRange p a x ∧ inRange p b x)) := by
  rw [dispatchRanges_zero, List.pairwise_map]
  refine (List.pairwise_lt_range k).imp ?_
  intro i j hij x hx
  obtain ⟨⟨_, h2⟩, ⟨h3, _⟩⟩ := hx
  simp only at h2 h3
  rw [lt_clampEnd_iff] at h2
  have hle : ((i : Int) + 1) * L ≤ (j : Int) * L :=
    mul_le_mul_of_nonneg_right (by exact_mod_cast hij) hL
  omega

theorem dispatchRanges_cover (p L : Int) (w : Nat) (hL : 0 ≤ L) (hpos : 0 < p → 0 < L)
    (hcov : p ≤ L * (w : Int)) (x : Int) :
    (∃ r ∈ dispatchRanges L w 0 L, inRange p r x) ↔ (0 ≤ x ∧ x < p) := by
  rw [dispatchRanges_zero]
  constructor
  · rintro ⟨r, hr, h1, h2⟩
    rw [List.mem_map] at hr
    obtain ⟨i, _, rfl⟩ := hr
    simp only at h1 h2
    rw [lt_clampEnd_iff] at h2
    have : 0 ≤ (i : Int) * L := mul_nonneg (by exact_mod_cast Nat.zero_le i) hL
    omega
  · rintro ⟨h0, hp⟩
    have hLpos : 0 < L := hpos (by omega)
    have hq0 : 0 ≤ x / L := Int.ediv_nonneg h0 hL
    have hq1 : x / L * L ≤ x := Int.ediv_mul_le x hLpos.ne'
    have hq2 : x < (x / L + 1) * L := Int.lt_ediv_add_one_mul_self x hLpos
    have hq3 : x / L < (w : Int) := by
      by_contra hcon
      have hm : (w : Int) * L ≤ x / L * L := mul_le_mul_of_nonneg_right (by omega) hL
      have e : L * (w : Int) = (w : Int) * L := by ring
      omega
    refine ⟨((x / L).toNat * L, (((x / L).toNat : Int) + 1) * L), ?_, ?_⟩
    · rw [List.mem_map]
      exact ⟨(x / L).toNat, List.mem_range.mpr (by omega), rfl⟩
    · have e : ((x / L).toNat : Int) = x / L := Int.toNat_of_nonneg hq0
      unfold inRange
      simp only
      rw [lt_clampEnd_iff, e]
      omega

/-- C3: for every pair count `p ≥ 0` and worker count `w ≥ 1`, with `L` the `thread_len` that
lines 107-109 compute, the dispatch loop hands out exactly `w` ranges, the `k`-th being
`(k*L, (k+1)*L)`; with the end clamped to `p` as on line 117 they are pairwise disjoint as sets
of integers and their union is exactly `{0, ..., p-1}`. -/
theorem C3_dispatch_ranges_partition (p : Int) (w : Nat) (hp : 0 ≤ p) (hw : 1 ≤ w) :
    ∃ L, (∀ fuel, p.toNat < fuel → computeThreadLen fuel p w = some L) ∧
      (dispatchRanges L w 0 L).length = w ∧
      (∀ k : Nat, k < w →
        (dispatchRanges L w 0 L)[k]? = some ((k : Int) * L, ((k : Int) + 1) * L)) ∧
      (dispatchRanges L w 0 L).Pairwise (fun a b => ∀ x, ¬ (inRange p a x ∧ inRange p b x)) ∧
      ∀ x, (∃ r ∈ dispatchRanges L w 0 L, inRange p r x) ↔ (0 ≤ x ∧ x < p) := by
  obtain ⟨L, e1, e2, e3, e4, e5⟩ := computeThreadLen_spec p w hp hw (p.toNat + 1) (by omega)
  refine ⟨L, ?_, ?_, ?_, dispatchRanges_disjoint p L e2 w,
    dispatchRanges_cover p L w e2 e5 e3⟩
  · intro fuel hf
    obtain ⟨L2, f1, f2, f3, f4, _⟩ := computeThreadLen_spec p w hp hw fuel hf
    rw [f1, le_antisymm (f4 L e2 e3) (e4 L2 f2 f3)]
  · rw [dispatchRanges_zero]; simp
  · intro k hk
    rw [dispatchRanges_zero]
    simp [hk]

theorem C3_dispatch_ranges_partition_witness :
    (0 : Int) ≤ 10 ∧ 1 ≤ 3 ∧ computeThreadLen 11 10 3 = some 4 ∧
      dispatchRanges 4 3 0 4 = [(0, 4), (4, 8), (8, 12)] ∧
      ∃ L, (∀ fuel, (10 : Int).toNat < fuel → computeThreadLen fuel 10 3 = some L) ∧
        (dispatchRanges L 3 0 L).length = 3 ∧
        (∀ k : Nat, k < 3 →
          (dispatchRanges L 3 0 L)[k]? = some ((k : Int) * L, ((k : Int) + 1) * L)) ∧
        (dispatchRanges L 3 0 L).Pairwise
          (fun a b => ∀ x, ¬ (inRange 10 a x ∧ inRange 10 b x)) ∧
        ∀ x, (∃ r ∈ dispatchRanges L 3 0 L, inRange 10 r x) ↔ (0 ≤ x ∧ x < 10) :=
  ⟨by decide, by decide, by decide, by decide,
    C3_dispatch_ranges_partition 10 3 (by decide) (by decide)⟩

/-! ## Frame of `processPair` and of `processRangeOfPairs` -/

theorem Frame.refl (S : Int → Prop) (m : TriangularMatrixOfVectors) : Frame S m m :=
  ⟨rfl, rfl, rfl, fun _ _ => rfl⟩

theorem Frame.trans {S : Int → Prop} {m m1 m2 : TriangularMatrixOfVectors}
    (h1 : Frame S m m1) (h2 : Frame S m1 m2) : Frame S m m2 :=
  ⟨h2.1.trans h1.1, h2.2.1.trans h1.2.1, h2.2.2.1.trans h1.2.2.1,
    fun k hk => (h2.2.2.2 k hk).trans (h1.2.2.2 k hk)⟩

theorem processPair_frame (S : Int → Prop) (m : TriangularMatrixOfVectors)
    (row col idx : Int) (hS : S idx) : Frame S m (processPair m row col idx).final := by
  unfold processPair
  simp only
  split
  · exact Frame.refl S m
  split
  · exact Frame.refl S m
  split
  · exact Frame.refl S m
  split
  · exact Frame.refl S m
  split
  · exact Frame.refl S m
  · rename_i hneg _ _ _ _
    refine ⟨rfl, rfl, rfl, ?_⟩
    intro k hk
    simp only [Run.final]
    rw [List.getElem?_set]
    have hne : idx.toNat ≠ k := by
      intro h
      apply hk
      have : (idx.toNat : Int) = idx := Int.toNat_of_nonneg (by omega)
      rw [← h, this]
      exact hS
    rw [if_neg hne]

theorem processPair_ok_frame (S : Int → Prop) {m m1 : TriangularMatrixOfVectors}
    {row col idx : Int} (hS : S idx) (h : processPair m row col idx = .ok m1) :
    Frame S m m1 := by
  have := processPair_frame S m row col idx hS
  rwa [h] at this

theorem innerLoop_frame (start final i : Int) :
    ∀ (fuel : Nat) (j : Int) (kg : Bool) (m : TriangularMatrixOfVectors),
      Frame (fun x => start ≤ x ∧ x < final) m (innerLoop start final i fuel j kg m).finalOf := by
  intro fuel
  induction fuel with
  | zero => intro j kg m; exact Frame.refl _ m
  | succ fuel ih =>
    intro j kg m
    unfold innerLoop
    simp only
    split
    · split
      · split
        · rename_i h1 h2
          have hp := processPair_frame (fun x => start ≤ x ∧ x < final) m i j
            (ut2dto1didx m i j) ⟨h1, h2⟩
          cases hpp : processPair m i j (ut2dto1didx m i j) with
          | error e =>
            rw [hpp] at hp
            exact hp
          | ok m1 =>
            rw [hpp] at hp
            exact Frame.trans hp (ih (j + 1) true m1)
        · exact ih (j + 1) false m
      · exact ih (j + 1) kg m
    · exact Frame.refl _ m

theorem outerLoop_frame (start final : Int) :
    ∀ (fuel : Nat) (i : Int) (kg : Bool) (m : TriangularMatrixOfVectors),
      Frame (fun x => start ≤ x ∧ x < final) m (outerLoop start final fuel i kg m).final := by
  intro fuel
  induction fuel with
  | zero => intro i kg m; exact Frame.refl _ m
  | succ fuel ih =>
    intro i kg m
    unfold outerLoop
    split
    · have hin := innerLoop_frame start final i fuel (i + 1) kg m
      cases hpp : innerLoop start final i fuel (i + 1) kg m with
      | error e =>
        rw [hpp] at hin
        exact hin
      | ok r =>
        obtain ⟨kg1, m1⟩ := r
        rw [hpp] at hin
        exact Frame.trans hin (ih (i + 1) kg1 m1)
    · exact Frame.refl _ m

theorem processRangeOfPairs_frame (fuel : Nat) (m : TriangularMatrixOfVectors)
    (start end_ : Int) :
    Frame (fun x => start ≤ x ∧ x < clampEnd m.npairs end_) m
      (processRangeOfPairs fuel m start end_).final := by
  unfold processRangeOfPairs
  simp only
  split
  · exact Frame.refl _ m
  · exact outerLoop_frame start _ fuel _ true m

theorem dispatchRanges_getElem? (L : Int) (w i : Nat) (a : Int × Int)
    (h : (dispatchRanges L w 0 L)[i]? = some a) :
    i < w ∧ a = ((i : Int) * L, ((i : Int) + 1) * L) := by
  rw [dispatchRanges_zero, List.getElem?_map] at h
  by_cases hi : i < w
  · rw [List.getElem?_range hi] at h
    simp only [Option.map_some', Option.some.injEq] at h
    exact ⟨hi, h.symm⟩
  · rw [List.getElem?_eq_none (by simpa using hi)] at h
    simp at h

/-- C6: for every object, every `start ≥ 0` and every `end`, a run of
`processRangeOfPairs(start, end)`, whether it returns, stops on a fault or is cut off after any
number of iterations, leaves every vector stored at an offset outside `[start, min(end, p))`
unchanged.  Consequently, for two different ranges of one partition (positions `i ≠ j` of the
dispatch loop with a range length `L ≥ 0`) and every offset, at most one of the two workers
changes the vector stored there. -/
theorem C6_processRangeOfPairs_frame (fuel : Nat) (m : TriangularMatrixOfVectors)
    (start end_ : Int) (_hs : 0 ≤ start) :
    (∀ k : Nat, ¬ (start ≤ (k : Int) ∧ (k : Int) < clampEnd m.npairs end_) →
      (processRangeOfPairs fuel m start end_).final.pairvecs[k]? = m.pairvecs[k]?) ∧
    (∀ (L : Int) (w i j : Nat) (a b : Int × Int) (fuel2 : Nat)
        (m2 : TriangularMatrixOfVectors), 0 ≤ L → m2.npairs = m.npairs →
        (dispatchRanges L w 0 L)[i]? = some a → (dispatchRanges L w 0 L)[j]? = some b →
        i ≠ j → a = (start, end_) → ∀ k : Nat,
          (processRangeOfPairs fuel m a.1 a.2).final.pairvecs[k]? = m.pairvecs[k]? ∨
          (processRangeOfPairs fuel2 m2 b.1 b.2).final.pairvecs[k]? = m2.pairvecs[k]?) := by
  refine ⟨(processRangeOfPairs_frame fuel m start end_).2.2.2, ?_⟩
  intro L w i j a b fuel2 m2 hL hp ha hb hij _ k
  obtain ⟨_, rfl⟩ := dispatchRanges_getElem? L w i a ha
  obtain ⟨_, rfl⟩ := dispatchRanges_getElem? L w j b hb
  have f1 := (processRangeOfPairs_frame fuel m ((i : Int) * L) (((i : Int) + 1) * L)).2.2.2 k
  have f2 := (processRangeOfPairs_frame fuel2 m2 ((j : Int) * L) (((j : Int) + 1) * L)).2.2.2 k
  by_cases h1 : (i : Int) * L ≤ (k : Int) ∧ (k : Int) < clampEnd m.npairs (((i : Int) + 1) * L)
  · right
    apply f2
    rintro ⟨h3, h4⟩
    rw [lt_clampEnd_iff] at h1 h4
    rcases lt_or_gt_of_ne hij with h | h
    · have hle : ((i : Int) + 1) * L ≤ (j : Int) * L :=
        mul_le_mul_of_nonneg_right (by exact_mod_cast h) hL
      omega
    · have hle : ((j : Int) + 1) * L ≤ (i : Int) * L :=
        mul_le_mul_of_nonneg_right (by exact_mod_cast h) hL
      omega
  · left
    exact f1 h1

theorem C6_processRangeOfPairs_frame_witness :
    (0 : Int) ≤ 2 ∧
    (processRangeOfPairs 9 sample4 2 4).final.pairvecs = [[0], [0], [1], [1], [0], [0]] ∧
    ((∀ k : Nat, ¬ ((2 : Int) ≤ (k : Int) ∧ (k : Int) < clampEnd sample4.npairs 4) →
      (processRangeOfPairs 9 sample4 2 4).final.pairvecs[k]? = sample4.pairvecs[k]?) ∧
    (∀ (L : Int) (w i j : Nat) (a b : Int × Int) (fuel2 : Nat)
        (m2 : TriangularMatrixOfVectors), 0 ≤ L → m2.npairs = sample4.npairs →
        (dispatchRanges L w 0 L)[i]? = some a → (dispatchRanges L w 0 L)[j]? = some b →
        i ≠ j → a = (2, 4) → ∀ k : Nat,
          (processRangeOfPairs 9 sample4 a.1 a.2).final.pairvecs[k]? = sample4.pairvecs[k]? ∨
          (processRangeOfPairs fuel2 m2 b.1 b.2).final.pairvecs[k]? = m2.pairvecs[k]?)) :=
  ⟨by decide, by decide, C6_processRangeOfPairs_frame 9 sample4 2 4 (by decide)⟩

/-! ## The constructor and a requested worker count that is not positive -/

theorem wrap32_of_int (x : Int) (h0 : -2147483648 ≤ x) (h1 : x < 2147483648) :
    wrap32 x = x := by
  unfold wrap32
  omega

theorem mul_pred_bounds (n : Int) (hn : -46340 ≤ n ∧ n ≤ 46341) :
    0 ≤ n * (n - 1) ∧ n * (n - 1) ≤ 2147441940 := by
  constructor
  · rcases le_or_lt n 0 with h0 | h0
    · exact mul_nonneg_of_nonpos_of_nonpos h0 (by omega)
    · exact mul_nonneg (by omega) (by omega)
  · nlinarith [mul_nonneg (show 0 ≤ 46341 - n by omega) (show 0 ≤ n + 46340 by omega)]

theorem wrap32_mul_pred (n : Int) (hn : -46340 ≤ n ∧ n ≤ 46341) :
    wrap32 (n * (n - 1)) = n * (n - 1) := by
  have h := mul_pred_bounds n hn
  exact wrap32_of_int _ (by omega) (by omega)

theorem npairs_nonneg (n : Int) : 0 ≤ Int.tdiv (n * (n - 1)) 2 := by
  have h := two_mul_npairs n
  have h2 : 0 ≤ n * (n - 1) := by
    rcases le_or_lt n 0 with h0 | h0
    · exact mul_nonneg_of_nonpos_of_nonpos h0 (by omega)
    · exact mul_nonneg (by omega) (by omega)
  omega

theorem wellFormed_ctor (nside vectlen : Int) (m : TriangularMatrixOfVectors)
    (hn : -46340 ≤ nside ∧ nside ≤ 46341)
    (h : TriangularMatrixOfVectors.ctor nside vectlen = .ok m) :
    WellFormed m ∧ m.nrows = nside ∧ m.vlen = vectlen ∧ m.calls = [] ∧
      m.pairvecs = List.replicate m.npairs.toNat (List.replicate vectlen.toNat 0) := by
  unfold TriangularMatrixOfVectors.ctor at h
  simp only [wrap32_mul_pred nside hn] at h
  split at h
  · exact absurd h (by simp)
  · simp only [Except.ok.injEq] at h
    subst h
    refine ⟨⟨rfl, by simp, ?_⟩, rfl, rfl, rfl, rfl⟩
    intro v hv
    rw [List.eq_of_mem_replicate hv]
    simp

theorem chooseThreads_pos (nsimthreads : Int) (max_threads : Nat) :
    1 ≤ chooseThreads nsimthreads max_threads := by
  unfold chooseThreads
  split
  · split <;> omega
  · omega

/-- C9 (the claim fails): with `n = 4`, `vlen = 1`, a requested worker count of `0` and a
hardware parallelism of `4`, the constructor reports no error; it sets `nthreads = 3` and
`thread_len = 2` and the dispatch loop hands out the three ranges `(0,2)`, `(2,4)`, `(4,6)`. -/
theorem C9_nonpositive_worker_count_accepted :
    ∃ t, ThreadedTriangularMatrix.ctor 7 4 1 0 4 = .ok t ∧ t.nthreads = 3 ∧
      dispatchRanges t.thread_len t.nthreads 0 t.thread_len = [(0, 2), (2, 4), (4, 6)] :=
  ⟨_, rfl, by decide, by decide⟩

/-- C9 (amended): constructing `ThreadedTriangularMatrix` with a requested worker count `≤ 0`
reports no error, for a dimension `n` whose pair count fits an `int` (`-46340 ≤ n ≤ 46341`) and
a vector length `≥ 0`, which the base constructor needs: with any iteration budget above `p` it
returns an object with `nthreads = max(h - 1, 1) ≥ 1`, `h` being the hardware parallelism, and
the dispatch loop hands out `nthreads` ranges, not none. -/
theorem C9_nonpositive_worker_count_defaults (nside vectlen nsimthreads : Int) (h : Nat)
    (hn : -46340 ≤ nside ∧ nside ≤ 46341)
    (hv : 0 ≤ vectlen) (hs : nsimthreads ≤ 0) (fuel : Nat)
    (hf : (Int.tdiv (nside * (nside - 1)) 2).toNat < fuel) :
    ∃ t, ThreadedTriangularMatrix.ctor fuel nside vectlen nsimthreads h = .ok t ∧
      t.nthreads = max (h - 1) 1 ∧ 1 ≤ t.nthreads ∧
      (dispatchRanges t.thread_len t.nthreads 0 t.thread_len).length = t.nthreads ∧
      dispatchRanges t.thread_len t.nthreads 0 t.thread_len ≠ [] := by
  have hp := npairs_nonneg nside
  have hc : chooseThreads nsimthreads h = max (h - 1) 1 := by
    unfold chooseThreads
    rw [if_pos hs]
    split <;> omega
  have hpos := chooseThreads_pos nsimthreads h
  obtain ⟨L, e1, _⟩ := computeThreadLen_spec _ (chooseThreads nsimthreads h) hp hpos fuel hf
  have hb : TriangularMatrixOfVectors.ctor nside vectlen = .ok
      { nrows := nside
        npairs := Int.tdiv (nside * (nside - 1)) 2
        vlen := vectlen
        pairvecs := List.replicate (Int.tdiv (nside * (nside - 1)) 2).toNat
          (List.replicate vectlen.toNat 0)
        calls := [] } := by
    unfold TriangularMatrixOfVectors.ctor
    simp only [wrap32_mul_pred nside hn]
    rw [if_neg (by omega)]
  refine ⟨
    { nrows := nside
      npairs := Int.tdiv (nside * (nside - 1)) 2
      vlen := vectlen
      pairvecs := List.replicate (Int.tdiv (nside * (nside - 1)) 2).toNat
        (List.replicate vectlen.toNat 0)
      calls := []
      max_threads := h
      nthreads := chooseThreads nsimthreads h
      thread_len := L }, ?_, hc, hpos, ?_, ?_⟩
  · unfold ThreadedTriangularMatrix.ctor
    rw [hb]
    simp only [e1]
  · simp only
    rw [dispatchRanges_zero]; simp
  · simp only
    rw [dispatchRanges_zero]
    intro hnil
    have hlen := congrArg List.length hnil
    simp at hlen
    omega

theorem C9_nonpositive_worker_count_defaults_witness :
    ((-46340 : Int) ≤ 4 ∧ (4 : Int) ≤ 46341) ∧
    (0 : Int) ≤ 1 ∧ (0 : Int) ≤ 0 ∧ (Int.tdiv ((4 : Int) * (4 - 1)) 2).toNat < 7 ∧
    ∃ t, ThreadedTriangularMatrix.ctor 7 4 1 0 4 = .ok t ∧
      t.nthreads = max (4 - 1) 1 ∧ 1 ≤ t.nthreads ∧
      (dispatchRanges t.thread_len t.nthreads 0 t.thread_len).length = t.nthreads ∧
      dispatchRanges t.thread_len t.nthreads 0 t.thread_len ≠ [] :=
  ⟨by decide, by decide, by decide, by decide,
    C9_nonpositive_worker_count_defaults 4 1 0 4 (by decide) (by decide) (by decide) 7
      (by decide)⟩

/-! ## A range that starts at or after the pair count, over the integers

Read over the integers, the row search never ends when `start ≥ npairs`: `rowsum` never exceeds
`npairs`.  On 32-bit `int`s it ends once `rowsum` has wrapped, see `firstRowLoop32_wraps`. -/

theorem firstRowLoop_spins (start : Int) :
    ∀ (fuel : Nat) (rowlen firstrow rowsum : Int), rowsum ≤ start →
      (1 ≤ rowlen → 2 * rowsum + rowlen * (rowlen - 1) ≤ 2 * start) →
      firstRowLoop start fuel rowlen firstrow rowsum = none := by
  intro fuel
  induction fuel with
  | zero => intro _ _ _ _ _; rfl
  | succ fuel ih =>
    intro rowlen firstrow rowsum h1 h2
    unfold firstRowLoop
    rw [if_pos h1]
    apply ih
    · rcases le_or_lt 1 rowlen with h | h
      · have := h2 h
        nlinarith [mul_nonneg (show 0 ≤ rowlen - 1 by omega) (show 0 ≤ rowlen - 1 by omega)]
      · omega
    · intro h
      have := h2 (by omega)
      nlinarith

theorem processRangeOfPairs_spins (fuel : Nat) (m : TriangularMatrixOfVectors)
    (start end_ : Int) (hp : 2 * m.npairs = m.nrows * (m.nrows - 1)) (hs : m.npairs ≤ start) :
    processRangeOfPairs fuel m start end_ = .error (.outOfFuel, m) := by
  unfold processRangeOfPairs
  simp only
  rw [firstRowLoop_spins start fuel (m.nrows - 1) 0 (m.nrows - 1)]
  · have h2 : 0 ≤ (m.nrows - 1) * (m.nrows - 2) := by
      rcases le_or_lt m.nrows 1 with h0 | h0
      · exact mul_nonneg_of_nonpos_of_nonpos (by omega) (by omega)
      · exact mul_nonneg (by omega) (by omega)
    nlinarith
  · intro _
    nlinarith

theorem simulated_4_1_2 :
    ∃ t, ThreadedTriangularMatrix.ctor 7 4 1 2 8 = .ok t ∧
      (loopToSimulateParallelProcessing 5 t).map (fun m => m.pairvecs) =
        .ok [[1], [1], [1], [1], [1], [1]] :=
  ⟨_, rfl, rfl⟩

/-! ## Offsets of valid pairs -/

theorem threadLenLoop_some (p : Int) (w : Nat) :
    ∀ (fuel : Nat) (L0 L : Int), threadLenLoop p w fuel L0 = some L →
      L0 ≤ L ∧ p ≤ L * (w : Int) ∧ (L0 < L → (L - 1) * (w : Int) < p) := by
  intro fuel
  induction fuel with
  | zero => intro L0 L h; simp [threadLenLoop] at h
  | succ fuel ih =>
    intro L0 L h
    unfold threadLenLoop at h
    by_cases hc : L0 * (w : Int) < p
    · rw [if_pos hc] at h
      obtain ⟨h1, h2, h3⟩ := ih (L0 + 1) L h
      refine ⟨by omega, h2, fun _ => ?_⟩
      rcases eq_or_lt_of_le h1 with h5 | h5
      · rw [← h5]; simpa using hc
      · exact h3 h5
    · rw [if_neg hc] at h
      simp only [Option.some.injEq] at h
      subst h
      exact ⟨le_refl _, by omega, fun h => absurd h (lt_irrefl _)⟩

theorem thread_len_mul_lt (p : Int) (w : Nat) (hp : 0 ≤ p) (hw : 1 ≤ w) (hp31 : p < 2 ^ 31)
    (hw32 : (w : Int) < 2 ^ 32) (fuel : Nat) (L : Int)
    (h : computeThreadLen fuel p w = some L) :
    ∀ L1 : Int, 0 ≤ L1 → L1 ≤ L → L1 * (w : Int) < 2 ^ 32 := by
  have hw0 : (0 : Int) < (w : Int) := by exact_mod_cast hw
  obtain ⟨q0, q1, _⟩ := tdiv_mul_le p w hp hw
  obtain ⟨h1, _, h3⟩ := threadLenLoop_some p w fuel _ L h
  have hL : L * (w : Int) < 2 ^ 32 := by
    rcases eq_or_lt_of_le h1 with h5 | h5
    · rw [← h5]; omega
    · have h6 := h3 h5
      have e : (L - 1) * (w : Int) = L * (w : Int) - (w : Int) := by ring
      rw [e] at h6
      by_cases hpw : (w : Int) ≤ p
      · omega
      · have hL1 : L ≤ 1 := by
          by_contra hcon
          have : 1 * (w : Int) ≤ (L - 1) * (w : Int) :=
            mul_le_mul_of_nonneg_right (by omega) hw0.le
          omega
        have : L * (w : Int) ≤ 1 * (w : Int) := mul_le_mul_of_nonneg_right hL1 hw0.le
        omega
  intro L1 _ hle
  have : L1 * (w : Int) ≤ L * (w : Int) := mul_le_mul_of_nonneg_right hle hw0.le
  omega

/-! ## Where the remainder of the division goes -/

theorem effectiveLen_dispatch (p L : Int) (k : Nat) :
    effectiveLen p ((k : Int) * L, ((k : Int) + 1) * L) =
      if (k : Int) * L < p ∧ 0 < L then
        (if p < ((k : Int) + 1) * L then p - (k : Int) * L else L)
      else 0 := by
  have e : ((k : Int) + 1) * L = (k : Int) * L + L := by ring
  unfold effectiveLen clampEnd
  simp only
  rw [e]
  split_ifs <;> omega

/-- C11: for every `p ≥ 0` and `w ≥ 1`, with `L` the `thread_len` of lines 107-109 and the `w`
dispatched ranges clamped to `p` as on line 117: every range holds between `0` and `L` offsets;
a non-empty range that holds fewer than `L` offsets has only ranges of exactly `L` offsets
before it and only empty ranges after it, so it is the last non-empty one and there is at most
one such range. -/
theorem C11_remainder_at_tail (p : Int) (w : Nat) (hp : 0 ≤ p) (hw : 1 ≤ w) :
    ∃ L, (∀ fuel, p.toNat < fuel → computeThreadLen fuel p w = some L) ∧
      (∀ (k : Nat) (r : Int × Int), (dispatchRanges L w 0 L)[k]? = some r →
        0 ≤ effectiveLen p r ∧ effectiveLen p r ≤ L) ∧
      (∀ (k : Nat) (r : Int × Int), (dispatchRanges L w 0 L)[k]? = some r →
        0 < effectiveLen p r → effectiveLen p r < L →
        ∀ (j : Nat) (q : Int × Int), (dispatchRanges L w 0 L)[j]? = some q →
          (j < k → effectiveLen p q = L) ∧ (k < j → effectiveLen p q = 0) ∧
          (0 < effectiveLen p q → effectiveLen p q < L → j = k)) := by
  obtain ⟨L, e1, e2, e3, e4, _⟩ := computeThreadLen_spec p w hp hw (p.toNat + 1) (by omega)
  refine ⟨L, ?_, ?_, ?_⟩
  · intro fuel hf
    obtain ⟨L2, f1, f2, f3, f4, _⟩ := computeThreadLen_spec p w hp hw fuel hf
    rw [f1, le_antisymm (f4 L e2 e3) (e4 L2 f2 f3)]
  · intro k r hr
    obtain ⟨_, rfl⟩ := dispatchRanges_getElem? L w k r hr
    rw [effectiveLen_dispatch]
    have e : ((k : Int) + 1) * L = (k : Int) * L + L := by ring
    split_ifs <;> omega
  · intro k r hr h1 h2 j q hq
    obtain ⟨_, rfl⟩ := dispatchRanges_getElem? L w k r hr
    obtain ⟨_, rfl⟩ := dispatchRanges_getElem? L w j q hq
    rw [effectiveLen_dispatch] at h1 h2
    have ek : ((k : Int) + 1) * L = (k : Int) * L + L := by ring
    have ej : ((j : Int) + 1) * L = (j : Int) * L + L := by ring
    have hk : (k : Int) * L < p ∧ p < (k : Int) * L + L := by
      rw [ek] at h1 h2
      split_ifs at h1 h2 <;> omega
    have key : ∀ a b : Nat, a < b → (a : Int) * L + L ≤ (b : Int) * L := by
      intro a b hab
      have h : ((a : Int) + 1) * L ≤ (b : Int) * L :=
        mul_le_mul_of_nonneg_right (by exact_mod_cast hab) e2
      have e : ((a : Int) + 1) * L = (a : Int) * L + L := by ring
      omega
    rw [effectiveLen_dispatch, ej]
    refine ⟨fun hjk => ?_, fun hkj => ?_, fun g1 g2 => ?_⟩
    · have := key j k hjk
      split_ifs <;> omega
    · have := key k j hkj
      split_ifs <;> omega
    · rcases lt_trichotomy j k with h | h | h
      · have := key j k h
        split_ifs at g1 g2 <;> omega
      · exact h
      · have := key k j h
        split_ifs at g1 g2 <;> omega

theorem C11_remainder_at_tail_witness :
    (0 : Int) ≤ 10 ∧ 1 ≤ 3 ∧ computeThreadLen 11 10 3 = some 4 ∧
    (dispatchRanges 4 3 0 4).map (fun r => (r.1, clampEnd 10 r.2)) = [(0, 4), (4, 8), (8, 10)] ∧
    (dispatchRanges 4 3 0 4).map (effectiveLen 10) = [4, 4, 2] ∧
    ∃ L, (∀ fuel, (10 : Int).toNat < fuel → computeThreadLen fuel 10 3 = some L) ∧
      (∀ (k : Nat) (r : Int × Int), (dispatchRanges L 3 0 L)[k]? = some r →
        0 ≤ effectiveLen 10 r ∧ effectiveLen 10 r ≤ L) ∧
      (∀ (k : Nat) (r : Int × Int), (dispatchRanges L 3 0 L)[k]? = some r →
        0 < effectiveLen 10 r → effectiveLen 10 r < L →
        ∀ (j : Nat) (q : Int × Int), (dispatchRanges L 3 0 L)[j]? = some q →
          (j < k → effectiveLen 10 q = L) ∧ (k < j → effectiveLen 10 q = 0) ∧
          (0 < effectiveLen 10 q → effectiveLen 10 q < L → j = k)) :=
  ⟨by decide, by decide, by decide, by decide, by decide,
    C11_remainder_at_tail 10 3 (by decide) (by decide)⟩

/-! ## The worker count -/

/-- C14: for every requested worker count `s`, every hardware parallelism `h` and every object
the constructor returns, `nthreads = s` when `s > 0` and `nthreads = max(h - 1, 1)` otherwise;
in every case `nthreads ≥ 1`, so the divisor of line 107 is not zero, and `thread_len` is the
result of lines 107-109 with that divisor. -/
theorem C14_nthreads_positive (fuel : Nat) (nside vectlen s : Int) (h : Nat)
    (t : ThreadedTriangularMatrix)
    (ht : ThreadedTriangularMatrix.ctor fuel nside vectlen s h = .ok t) :
    (0 < s → (t.nthreads : Int) = s) ∧ (s ≤ 0 → t.nthreads = max (h - 1) 1) ∧
      1 ≤ t.nthreads ∧ (t.nthreads : Int) ≠ 0 ∧
      computeThreadLen fuel t.npairs t.nthreads = some t.thread_len := by
  unfold ThreadedTriangularMatrix.ctor at ht
  cases hb : TriangularMatrixOfVectors.ctor nside vectlen with
  | error e => rw [hb] at ht; exact absurd ht (by simp)
  | ok base =>
    rw [hb] at ht
    simp only at ht
    cases hl : computeThreadLen fuel base.npairs (chooseThreads s h) with
    | none => rw [hl] at ht; exact absurd ht (by simp)
    | some L =>
      rw [hl] at ht
      simp only [Except.ok.injEq] at ht
      subst ht
      have hpos := chooseThreads_pos s h
      refine ⟨?_, ?_, hpos, ?_, hl⟩
      · intro hs
        simp only [chooseThreads, if_neg (not_le.mpr hs)]
        exact Int.toNat_of_nonneg hs.le
      · intro hs
        simp only [chooseThreads, if_pos hs]
        split <;> omega
      · simp only
        omega

theorem C14_nthreads_positive_witness :
    ∃ t, ThreadedTriangularMatrix.ctor 7 4 1 0 4 = .ok t ∧
      ((0 : Int) < 0 → (t.nthreads : Int) = 0) ∧ ((0 : Int) ≤ 0 → t.nthreads = max (4 - 1) 1) ∧
      1 ≤ t.nthreads ∧ (t.nthreads : Int) ≠ 0 ∧
      computeThreadLen 7 t.npairs t.nthreads = some t.thread_len :=
  ⟨_, rfl, C14_nthreads_positive 7 4 1 0 4 _ rfl⟩

/-! ## Simulated and threaded dispatch -/

theorem threadedRanges_eq_dispatchRanges (L : Int) : ∀ (k : Nat) (fst lst : Int),
    threadedRanges L k fst lst = dispatchRanges L k fst lst := by
  intro k
  induction k with
  | zero => intro _ _; rfl
  | succ k ih => intro fst lst; simp only [threadedRanges, dispatchRanges, ih]

theorem simulateLoop_eq_foldlM (fuel : Nat) (L : Int) :
    ∀ (k : Nat) (fst lst : Int) (m : TriangularMatrixOfVectors),
      simulateLoop fuel L k fst lst m =
        (dispatchRanges L k fst lst).foldlM
          (fun m1 r => processRangeOfPairs fuel m1 r.1 r.2) m := by
  intro k
  induction k with
  | zero => intro _ _ _; rfl
  | succ k ih =>
    intro fst lst m
    simp only [simulateLoop, dispatchRanges, List.foldlM_cons]
    cases h : processRangeOfPairs fuel m fst lst with
    | error e => rfl
    | ok m1 => exact ih lst (lst + L) m1

/-- C20: for every object, the calls `processRangeOfPairs(fst, lst)` that
`threadedProcessingOfAllPairs` starts as threads are, in order, the calls that
`loopToSimulateParallelProcessing` runs one after the other: the simulated run is the
sequential pass of `processRangeOfPairs` over exactly that list, there are `nthreads` of them,
and the `k`-th is `(k*thread_len, (k+1)*thread_len)`. -/
theorem C20_same_ranges_both_modes (fuel : Nat) (t : ThreadedTriangularMatrix) :
    threadedProcessingOfAllPairs t = dispatchRanges t.thread_len t.nthreads 0 t.thread_len ∧
    loopToSimulateParallelProcessing fuel t =
      (threadedProcessingOfAllPairs t).foldlM
        (fun m r => processRangeOfPairs fuel m r.1 r.2) t.toTriangularMatrixOfVectors ∧
    (threadedProcessingOfAllPairs t).length = t.nthreads ∧
    ∀ k : Nat, k < t.nthreads →
      (threadedProcessingOfAllPairs t)[k]? =
        some ((k : Int) * t.thread_len, ((k : Int) + 1) * t.thread_len) := by
  have h := threadedRanges_eq_dispatchRanges t.thread_len t.nthreads 0 t.thread_len
  unfold threadedProcessingOfAllPairs loopToSimulateParallelProcessing
  rw [h]
  refine ⟨rfl, simulateLoop_eq_foldlM fuel _ _ _ _ _, ?_, ?_⟩
  · rw [dispatchRanges_zero]; simp
  · intro k hk
    rw [dispatchRanges_zero]
    simp [hk]

/-! ## The row that holds an offset -/

theorem ctor_2_3_1 (hc : Nat) : ThreadedTriangularMatrix.ctor 4 2 3 1 hc = .ok
    { nrows := 2, npairs := 1, vlen := 3, pairvecs := [[0, 0, 0]], calls := []
      max_threads := hc, nthreads := 1, thread_len := 1 } := by
  unfold ThreadedTriangularMatrix.ctor
  have h1 : chooseThreads 1 hc = 1 := rfl
  have h2 : TriangularMatrixOfVectors.ctor 2 3 = .ok
      { nrows := 2, npairs := 1, vlen := 3, pairvecs := [[0, 0, 0]], calls := [] } := rfl
  rw [h2]
  simp only [h1]
  rfl

/-- C12 (evaluation at the failing input): for `n = 2`, `vlen = 3` and one worker the
constructor builds one vector `[0,0,0]` and hands out the range `(0, 1)`.  The walk computes
`ut2dto1didx(0, 1) = -255` (line 43: `c = 1 ≥ npairs = 1`), which is below `start`, so
`processPair` is never called and the vector stays `[0,0,0]`; `finalCheck` then accesses
`pairvecs[-255]`, outside the store, and does not return `0`. -/
theorem C12_single_pair_not_processed (hc : Nat) :
    ∃ t, ThreadedTriangularMatrix.ctor 4 2 3 1 hc = .ok t ∧
      ut2dto1didx t.toTriangularMatrixOfVectors 0 1 = -255 ∧
      ∀ fuel : Nat,
        loopToSimulateParallelProcessing (fuel + 3) t = .ok t.toTriangularMatrixOfVectors ∧
        t.pairvecs = [[0, 0, 0]] ∧ t.calls = [] ∧
        (finalCheck (fuel + 3) t.toTriangularMatrixOfVectors).result = .error .outOfBounds ∧
        (finalCheck (fuel + 3) t.toTriangularMatrixOfVectors).reads = [-255] ∧
        (finalCheck fuel t.toTriangularMatrixOfVectors).result ≠ .ok 0 := by
  refine ⟨_, ctor_2_3_1 hc, rfl, ?_⟩
  intro fuel
  refine ⟨?_, rfl, rfl, ?_, ?_, ?_⟩
  · simp [loopToSimulateParallelProcessing, simulateLoop, processRangeOfPairs, firstRowLoop,
      outerLoop, innerLoop, ut2dto1didx, clampEnd]
  · simp [finalCheck, checkRows, checkColumns, elementLoop, ut2dto1didx]
  · simp [finalCheck, checkRows, checkColumns, elementLoop, ut2dto1didx]
  · match fuel with
    | 0 => simp [finalCheck, checkRows]
    | 1 => simp [finalCheck, checkRows, checkColumns]
    | 2 => simp [finalCheck, checkRows, checkColumns, elementLoop, ut2dto1didx]
    | k + 3 => simp [finalCheck, checkRows, checkColumns, elementLoop, ut2dto1didx]

/-! ## Every call of `processPair` passes its own check -/

theorem processRangeOfPairs32_frame (fuel : Nat) (m : TriangularMatrixOfVectors)
    (start end_ : Int) :
    Frame (fun x => start ≤ x ∧ x < clampEnd m.npairs end_) m
      (processRangeOfPairs32 fuel m start end_).final := by
  unfold processRangeOfPairs32
  simp only
  split
  · exact Frame.refl _ m
  · exact outerLoop_frame start _ fuel _ true m

/-! ## Empty ranges on 32-bit `int`s -/

theorem Filled.congr {m : TriangularMatrixOfVectors} {b b1 : Int} (h : Filled m b)
    (e : b = b1) : Filled m b1 := e ▸ h

theorem simulated32_4_1_2 :
    ∃ t, ThreadedTriangularMatrix.ctor 7 4 1 2 8 = .ok t ∧
      (loopToSimulateParallelProcessing32 5 t).map (fun m => m.pairvecs) =
        .ok [[1], [1], [1], [1], [1], [1]] :=
  ⟨_, rfl, rfl⟩

end ParallelUT
